import Mathlib

/-!
# Verification of the `merkle-tree` crate (`src/lib.rs`)

A shallow embedding of the Merkle-tree library: `MerkleTree::<T>::new` becomes
`build`, `root`, `proof` and `verify` become the functions of the same names.

The embedding is generic over the hash capability, exactly as the Rust code is
generic over the `Hasher` trait: a hash type `H` with a total order (the Rust
bound `Ord`), a hash function from byte strings (`T::hash`), a conversion to
bytes (`Into<Vec<u8>>`), and a default value (`Default`). Byte strings are
modelled as `List Nat`.

Indexing that the Rust code performs without a bounds check (`layers[last][0]`
in `root`, which panics on an empty layer) is modelled with `Option`; indexing
the code guards with an explicit bounds test (`pair_index < layer.len()` in
`proof`) is modelled with the guarded `getElem?`.
-/

/-- The hash capability of `trait Hasher`: the `Hash` associated type is `H`
(with `[LinearOrder H]` for the Rust `Ord` bound), `hash` is `T::hash`,
`toBytes` is the `Into<Vec<u8>>` conversion, and `dflt` is `Default::default()`
for the hash type. -/
structure Hasher (H : Type) where
  hash : List Nat → H
  toBytes : H → List Nat
  dflt : H

variable {H : Type} [LinearOrder H]

/-- `MerkleTree::hash_pair(pair[0], pair[1])` after `pair.sort()`: sort the two
values ascending, concatenate their byte forms, and hash. -/
def hashPair (hs : Hasher H) (a b : H) : H :=
  if a ≤ b then hs.hash (hs.toBytes a ++ hs.toBytes b)
  else hs.hash (hs.toBytes b ++ hs.toBytes a)

/-- One iteration of the `while nodes.len() > 1` body: scan the nodes two at a
time, hashing full pairs via `hashPair` and carrying an unpaired trailing node
into the next layer unchanged (the `nodes.len() % 2 == 1` branch). -/
def buildLayer (hs : Hasher H) : List H → List H
  | [] => []
  | [x] => [x]
  | x :: y :: rest => hashPair hs x y :: buildLayer hs rest

/-- Every layer step halves the node count, rounding up. -/
theorem buildLayer_length (hs : Hasher H) :
    ∀ l : List H, (buildLayer hs l).length = (l.length + 1) / 2
  | [] => by simp [buildLayer]
  | [_] => by simp [buildLayer]
  | _ :: _ :: rest => by
    simp [buildLayer, buildLayer_length hs rest]; omega

/-- The layers the `while` loop pushes above the initial leaf layer: while the
current layer has more than one node, push the next layer and recurse on it. -/
def buildLayers (hs : Hasher H) (nodes : List H) : List (List H) :=
  if h : 1 < nodes.length then
    buildLayer hs nodes :: buildLayers hs (buildLayer hs nodes)
  else []
  termination_by nodes.length
  decreasing_by simp [buildLayer_length]; omega

/-- The tree value `MerkleTree { leaves, layers }`. -/
structure MerkleTree (H : Type) where
  leaves : List H
  layers : List (List H)

/-- `MerkleTree::<T>::new`: hash every input byte string, sort the hashes
ascending, seed the layers with the sorted leaves, and run the pairing loop. -/
def build (hs : Hasher H) (input : List (List Nat)) : MerkleTree H :=
  let leaves := List.insertionSort (· ≤ ·) (input.map hs.hash)
  { leaves := leaves, layers := leaves :: buildLayers hs leaves }

/-- `MerkleTree::root`: the default hash when there are no layers, otherwise
the first element of the last layer. `layers[self.layers.len() - 1][0]` is an
unchecked index, so an empty last layer yields `none` (the panic). -/
def root (hs : Hasher H) (t : MerkleTree H) : Option H :=
  match t.layers.getLast? with
  | none => some hs.dflt
  | some last => last.head?

/-- The leaf-lookup loop of `MerkleTree::proof`: scan all of `leaves`, keeping
the index of the latest match (`index = Some(i)` overwrites earlier matches). -/
def lastIndexAux (leaf : H) : List H → Nat → Option Nat → Option Nat
  | [], _, acc => acc
  | x :: xs, i, acc => lastIndexAux leaf xs (i + 1) (if leaf = x then some i else acc)

/-- The result of the lookup loop started at index 0 with no match recorded. -/
def findLastIndex (leaf : H) (l : List H) : Option Nat :=
  lastIndexAux leaf l 0 none

/-- The sibling-collecting loop of `MerkleTree::proof`: for each layer bottom
to top, push the pair partner (`index - 1` for a right node, `index + 1` for a
left node) when it is in bounds, then move to the parent index `index / 2`. -/
def proofWalk : List (List H) → Nat → List H
  | [], _ => []
  | layer :: rest, index =>
    let pairIndex := if index % 2 > 0 then index - 1 else index + 1
    match layer[pairIndex]? with
    | some v => v :: proofWalk rest (index / 2)
    | none => proofWalk rest (index / 2)

/-- `MerkleTree::proof`: locate the leaf (empty proof when absent), then walk
the layers collecting siblings. -/
def MerkleTree.proof (t : MerkleTree H) (leaf : H) : List H :=
  match findLastIndex leaf t.leaves with
  | none => []
  | some index => proofWalk t.layers index

/-- One step of `MerkleTree::verify`: combine the accumulator with the next
proof node, smaller value first (`if hash < node`). -/
def verifyStep (hs : Hasher H) (acc node : H) : H :=
  if acc < node then hs.hash (hs.toBytes acc ++ hs.toBytes node)
  else hs.hash (hs.toBytes node ++ hs.toBytes acc)

/-- `MerkleTree::verify`: fold the proof into the candidate leaf and compare
the result with the claimed root. The `tree` argument is the `&self` receiver,
which the body never reads. -/
def verify (hs : Hasher H) (tree : MerkleTree H) (pf : List H) (leaf rootHash : H) : Bool :=
  decide (pf.foldl (verifyStep hs) leaf = rootHash)

/-! ## Basic facts about the pairing step -/

/-- Sorting the pair before hashing makes `hashPair` commutative. -/
theorem hashPair_comm (hs : Hasher H) (a b : H) : hashPair hs a b = hashPair hs b a := by
  unfold hashPair
  rcases lt_trichotomy a b with h | h | h
  · rw [if_pos h.le, if_neg (not_le.mpr h)]
  · subst h; simp
  · rw [if_neg (not_le.mpr h), if_pos h.le]

/-- The verification step (`if hash < node`) computes the same value as the
construction step (`pair.sort()`): they differ only on equal inputs, where both
hash the same concatenation. -/
theorem verifyStep_eq_hashPair (hs : Hasher H) (a b : H) :
    verifyStep hs a b = hashPair hs a b := by
  unfold verifyStep hashPair
  rcases lt_trichotomy a b with h | h | h
  · rw [if_pos h, if_pos h.le]
  · subst h; simp
  · rw [if_neg (not_lt.mpr h.le), if_neg (not_le.mpr h)]

/-- Induction principle following `buildLayer`'s two-at-a-time recursion. -/
def twoStepInduction {α : Type} {motive : List α → Prop} (nil : motive [])
    (one : ∀ x, motive [x])
    (two : ∀ x y rest, motive rest → motive (x :: y :: rest)) :
    ∀ l : List α, motive l
  | [] => nil
  | [x] => one x
  | x :: y :: rest => two x y rest (twoStepInduction nil one two rest)

/-- A left node (`i` even) with an in-bounds partner produces the pair hash at
parent index `i / 2` of the next layer. -/
theorem buildLayer_getElem_left (hs : Hasher H) (l : List H) :
    ∀ (i : Nat) (a b : H), i % 2 = 0 → l[i]? = some a → l[i + 1]? = some b →
      (buildLayer hs l)[i / 2]? = some (hashPair hs a b) := by
  induction l using twoStepInduction with
  | nil => intro i a b _ ha _; simp at ha
  | one x => intro i a b _ _ hb; rcases i with _ | j <;> simp at hb
  | two x y rest ih =>
    intro i a b hmod ha hb
    rcases i with _ | _ | k
    · simp at ha hb
      subst ha; subst hb
      simp [buildLayer]
    · simp at hmod
    · have hdiv : (k + 2) / 2 = k / 2 + 1 := by omega
      rw [hdiv]
      simp only [List.getElem?_cons_succ] at ha hb
      simp only [buildLayer, List.getElem?_cons_succ]
      exact ih k a b (by omega) ha hb

/-- A left node (`i` even) whose partner index is just out of bounds — the
trailing node of an odd layer — is carried to parent index `i / 2` unchanged. -/
theorem buildLayer_getElem_carry (hs : Hasher H) (l : List H) :
    ∀ (i : Nat) (a : H), i % 2 = 0 → i + 1 = l.length → l[i]? = some a →
      (buildLayer hs l)[i / 2]? = some a := by
  induction l using twoStepInduction with
  | nil => intro i a _ hlen _; simp at hlen
  | one x =>
    intro i a _ hlen ha
    have hi : i = 0 := by simp at hlen; omega
    subst hi
    simp at ha
    subst ha
    simp [buildLayer]
  | two x y rest ih =>
    intro i a hmod hlen ha
    rcases i with _ | _ | k
    · simp at hlen
    · simp at hmod
    · have hdiv : (k + 2) / 2 = k / 2 + 1 := by omega
      rw [hdiv]
      simp only [List.getElem?_cons_succ] at ha
      simp only [buildLayer, List.getElem?_cons_succ]
      refine ih k a (by omega) (by simp at hlen; omega) ha

/-- A right node (`i` odd) pairs with its left neighbour: the next layer holds
the pair hash at parent index `i / 2`. -/
theorem buildLayer_getElem_right (hs : Hasher H) (l : List H) :
    ∀ (i : Nat) (a b : H), i % 2 = 1 → l[i - 1]? = some a → l[i]? = some b →
      (buildLayer hs l)[i / 2]? = some (hashPair hs a b) := by
  induction l using twoStepInduction with
  | nil => intro i a b _ _ hb; simp at hb
  | one x =>
    intro i a b hmod _ hb
    rcases i with _ | j
    · simp at hmod
    · simp at hb
  | two x y rest ih =>
    intro i a b hmod ha hb
    rcases i with _ | _ | k
    · simp at hmod
    · simp at ha hb
      subst ha; subst hb
      simp [buildLayer]
    · rcases k with _ | m
      · simp at hmod
      · have hdiv : (m + 3) / 2 = (m + 1) / 2 + 1 := by omega
        rw [hdiv]
        have ha' : rest[m]? = some a := by
          have : m + 3 - 1 = m + 2 := by omega
          rw [this] at ha
          simpa using ha
        have hb' : rest[m + 1]? = some b := by simpa using hb
        simp only [buildLayer, List.getElem?_cons_succ]
        have := ih (m + 1) a b (by omega) (by simpa using ha') hb'
        simpa using this

/-! ## The tower of layers built by the `while` loop -/

/-- `Layered hs L r` says `L` is a complete tower of layers: each layer of
length greater than one is followed by the layer `buildLayer` derives from it,
and the tower ends in the singleton layer `[r]`. -/
inductive Layered (hs : Hasher H) : List (List H) → H → Prop
  | single (x : H) : Layered hs [[x]] x
  | step (l : List H) (rest : List (List H)) (r : H) :
      1 < l.length → Layered hs (buildLayer hs l :: rest) r →
      Layered hs (l :: buildLayer hs l :: rest) r

/-- The construction loop really produces such a tower from any non-empty
starting layer. -/
theorem layered_buildLayers (hs : Hasher H) (nodes : List H) (hne : nodes ≠ []) :
    ∃ r, Layered hs (nodes :: buildLayers hs nodes) r := by
  by_cases h : 1 < nodes.length
  · have hnext : buildLayer hs nodes ≠ [] := by
      intro hcon
      have := buildLayer_length hs nodes
      rw [hcon] at this
      simp at this
      omega
    obtain ⟨r, hr⟩ := layered_buildLayers hs (buildLayer hs nodes) hnext
    refine ⟨r, ?_⟩
    rw [buildLayers, dif_pos h]
    exact Layered.step _ _ _ h hr
  · obtain ⟨x, xs, hx⟩ := List.exists_cons_of_ne_nil hne
    subst hx
    have hlen : xs.length + 1 ≤ 1 := by
      simpa only [List.length_cons, not_lt] using h
    have hxs : xs = [] := List.eq_nil_of_length_eq_zero (by omega)
    subst hxs
    rw [buildLayers, dif_neg h]
    exact ⟨x, Layered.single x⟩
  termination_by nodes.length
  decreasing_by rw [buildLayer_length]; omega

/-- A tower's last layer is the singleton holding the tower's root. -/
theorem layered_getLast {hs : Hasher H} :
    ∀ {L : List (List H)} {r : H}, Layered hs L r → L.getLast? = some [r] := by
  intro L r h
  induction h with
  | single x => rfl
  | step l rest r hlen hinner ih => rw [List.getLast?_cons_cons]; exact ih

/-- Main walk invariant: starting the sibling walk at any in-bounds position of
the bottom layer of a tower and folding the collected siblings into the value
at that position reproduces the tower's root. -/
theorem layered_proofWalk (hs : Hasher H) {L : List (List H)} {r : H} (hL : Layered hs L r) :
    ∀ (l0 : List H) (rest : List (List H)), L = l0 :: rest →
      ∀ (i : Nat) (hi : i < l0.length),
        List.foldl (verifyStep hs) l0[i] (proofWalk (l0 :: rest) i) = r := by
  induction hL with
  | single x =>
    intro l0 rest heq i hi
    injection heq with h1 h2
    subst h1; subst h2
    have hi0 : i = 0 := by simp at hi; omega
    subst hi0
    simp [proofWalk]
  | step l rest r hlen hinner ih =>
    intro l0 rest0 heq i hi
    injection heq with h1 h2
    subst h1; subst h2
    rcases Nat.mod_two_eq_zero_or_one i with hpar | hpar
    · by_cases hsib : i + 1 < l.length
      · -- left node with an in-bounds partner
        have hb : l[i + 1]? = some (l[i + 1]) := List.getElem?_eq_getElem hsib
        have hparent := buildLayer_getElem_left hs l i (l[i]) (l[i + 1]) hpar
          (List.getElem?_eq_getElem hi) hb
        obtain ⟨hplt, hpeq⟩ := List.getElem?_eq_some.mp hparent
        have hwalk : proofWalk (l :: buildLayer hs l :: rest) i
            = l[i + 1] :: proofWalk (buildLayer hs l :: rest) (i / 2) := by
          rw [proofWalk]
          have : ¬ (i % 2 > 0) := by omega
          rw [if_neg this, hb]
        rw [hwalk, List.foldl_cons, verifyStep_eq_hashPair]
        have := ih (buildLayer hs l) rest rfl (i / 2) hplt
        rw [hpeq] at this
        exact this
      · -- trailing node of an odd layer: carried, no sibling
        have hlast : i + 1 = l.length := by omega
        have hnone : l[i + 1]? = none := by
          rw [List.getElem?_eq_none]
          omega
        have hparent := buildLayer_getElem_carry hs l i (l[i]) hpar hlast
          (List.getElem?_eq_getElem hi)
        obtain ⟨hplt, hpeq⟩ := List.getElem?_eq_some.mp hparent
        have hwalk : proofWalk (l :: buildLayer hs l :: rest) i
            = proofWalk (buildLayer hs l :: rest) (i / 2) := by
          rw [proofWalk]
          have : ¬ (i % 2 > 0) := by omega
          rw [if_neg this, hnone]
        rw [hwalk]
        have := ih (buildLayer hs l) rest rfl (i / 2) hplt
        rw [hpeq] at this
        exact this
    · -- right node: sibling is the left neighbour
      have hprev : i - 1 < l.length := by omega
      have ha : l[i - 1]? = some (l[i - 1]) := List.getElem?_eq_getElem hprev
      have hparent := buildLayer_getElem_right hs l i (l[i - 1]) (l[i]) hpar ha
        (List.getElem?_eq_getElem hi)
      obtain ⟨hplt, hpeq⟩ := List.getElem?_eq_some.mp hparent
      have hwalk : proofWalk (l :: buildLayer hs l :: rest) i
          = l[i - 1] :: proofWalk (buildLayer hs l :: rest) (i / 2) := by
        rw [proofWalk]
        have : i % 2 > 0 := by omega
        rw [if_pos this, ha]
      rw [hwalk, List.foldl_cons, verifyStep_eq_hashPair, hashPair_comm]
      have := ih (buildLayer hs l) rest rfl (i / 2) hplt
      rw [hpeq] at this
      exact this

/-! ## The leaf-lookup loop -/

/-- When the leaf does not occur in the remaining nodes, the lookup loop
returns whatever match was already recorded. -/
theorem lastIndexAux_not_mem (leaf : H) :
    ∀ (xs : List H) (i : Nat) (acc : Option Nat), leaf ∉ xs →
      lastIndexAux leaf xs i acc = acc
  | [], _, _, _ => rfl
  | x :: xs, i, acc, h => by
    rw [lastIndexAux]
    have hx : ¬ leaf = x := fun hc => h (hc ▸ List.mem_cons_self x xs)
    rw [if_neg hx]
    exact lastIndexAux_not_mem leaf xs (i + 1) acc (fun hc => h (List.mem_cons_of_mem x hc))

/-- A value absent from a list is not produced by any lookup. -/
theorem getElem?_ne_of_not_mem (leaf : H) (xs : List H) (h : leaf ∉ xs) (k : Nat) :
    xs[k]? ≠ some leaf := by
  intro hc
  obtain ⟨hk, he⟩ := List.getElem?_eq_some.mp hc
  exact h (he ▸ List.getElem_mem hk)

/-- When the leaf occurs, the lookup loop records its last occurrence: the
returned index points at the leaf and no later position holds it. -/
theorem lastIndexAux_mem (leaf : H) :
    ∀ (xs : List H) (i : Nat) (acc : Option Nat), leaf ∈ xs →
      ∃ j : Nat, j < xs.length ∧ xs[j]? = some leaf ∧
        (∀ k : Nat, j < k → xs[k]? ≠ some leaf) ∧
        lastIndexAux leaf xs i acc = some (i + j)
  | [], _, _, h => absurd h (List.not_mem_nil leaf)
  | x :: xs, i, acc, h => by
    by_cases hmem : leaf ∈ xs
    · obtain ⟨j, hj, hget, hlast, heq⟩ :=
        lastIndexAux_mem leaf xs (i + 1) (if leaf = x then some i else acc) hmem
      refine ⟨j + 1, by simp; omega, by simpa using hget, ?_, ?_⟩
      · intro k hk
        rcases k with _ | k0
        · omega
        · have : j < k0 := by omega
          simpa using hlast k0 this
      · rw [lastIndexAux, heq]
        congr 1
        omega
    · have hx : leaf = x := by
        rcases List.mem_cons.mp h with h1 | h1
        · exact h1
        · exact absurd h1 hmem
      refine ⟨0, by simp, by simp [hx], ?_, ?_⟩
      · intro k hk
        rcases k with _ | k0
        · omega
        · simpa using getElem?_ne_of_not_mem leaf xs hmem k0
      · rw [lastIndexAux, if_pos hx, lastIndexAux_not_mem leaf xs (i + 1) (some i) hmem]
        simp

/-- `findLastIndex` on a present leaf: the last matching index. -/
theorem findLastIndex_mem (leaf : H) (l : List H) (h : leaf ∈ l) :
    ∃ j : Nat, j < l.length ∧ l[j]? = some leaf ∧
      (∀ k : Nat, j < k → l[k]? ≠ some leaf) ∧ findLastIndex leaf l = some j := by
  obtain ⟨j, h1, h2, h3, h4⟩ := lastIndexAux_mem leaf l 0 none h
  exact ⟨j, h1, h2, h3, by simpa using h4⟩

/-- `findLastIndex` on an absent leaf: no match. -/
theorem findLastIndex_not_mem (leaf : H) (l : List H) (h : leaf ∉ l) :
    findLastIndex leaf l = none :=
  lastIndexAux_not_mem leaf l 0 none h

/-! ## Facts about built trees -/

/-- The layers of a built tree start with its leaves. -/
theorem build_layers_eq (hs : Hasher H) (input : List (List Nat)) :
    (build hs input).layers
      = (build hs input).leaves :: buildLayers hs (build hs input).leaves := rfl

/-- A non-empty input produces non-empty sorted leaves. -/
theorem build_leaves_ne_nil (hs : Hasher H) (input : List (List Nat)) (hne : input ≠ []) :
    (build hs input).leaves ≠ [] := by
  intro hc
  have hperm := List.perm_insertionSort (fun a b : H => a ≤ b) (input.map hs.hash)
  have hlen := hperm.length_eq
  rw [show List.insertionSort (fun a b : H => a ≤ b) (input.map hs.hash)
      = (build hs input).leaves from rfl, hc] at hlen
  simp at hlen
  exact hne (List.eq_nil_of_length_eq_zero hlen.symm)

/-- A built tree over a non-empty input is a complete tower whose root value
`root` returns. -/
theorem build_root_layered (hs : Hasher H) (input : List (List Nat)) (hne : input ≠ []) :
    ∃ r, Layered hs (build hs input).layers r ∧ root hs (build hs input) = some r := by
  obtain ⟨r, hr⟩ :=
    layered_buildLayers hs (build hs input).leaves (build_leaves_ne_nil hs input hne)
  refine ⟨r, hr, ?_⟩
  unfold root
  rw [build_layers_eq, layered_getLast hr]
  rfl

/-- A layer step keeps a non-empty layer non-empty. -/
theorem buildLayer_ne_nil (hs : Hasher H) (l : List H) (h : l ≠ []) :
    buildLayer hs l ≠ [] := by
  intro hcon
  have hlen := buildLayer_length hs l
  rw [hcon] at hlen
  have hpos : 0 < l.length := List.length_pos.mpr h
  simp at hlen
  omega

/-- On an odd-length layer the trailing node is carried: the next layer ends
in exactly the same value. -/
theorem buildLayer_getLast_odd (hs : Hasher H) :
    ∀ l : List H, l.length % 2 = 1 → (buildLayer hs l).getLast? = l.getLast?
  | [], h => by simp at h
  | [_], _ => rfl
  | x :: y :: rest, h => by
    have hodd : rest.length % 2 = 1 := by
      simp only [List.length_cons] at h
      omega
    have hne : rest ≠ [] := by
      intro hc
      rw [hc] at hodd
      simp at hodd
    obtain ⟨a, as, ha⟩ := List.exists_cons_of_ne_nil hne
    obtain ⟨b, bs, hb⟩ := List.exists_cons_of_ne_nil (buildLayer_ne_nil hs rest hne)
    have ih := buildLayer_getLast_odd hs rest hodd
    calc (buildLayer hs (x :: y :: rest)).getLast?
        = (hashPair hs x y :: buildLayer hs rest).getLast? := rfl
      _ = (buildLayer hs rest).getLast? := by rw [hb, List.getLast?_cons_cons]
      _ = rest.getLast? := ih
      _ = (x :: y :: rest).getLast? := by
          rw [ha, List.getLast?_cons_cons, List.getLast?_cons_cons]

/-- `hashPair` hashes the concatenation of the two byte forms in ascending
order of the hash values. -/
theorem hashPair_eq_minmax (hs : Hasher H) (a b : H) :
    hashPair hs a b = hs.hash (hs.toBytes (min a b) ++ hs.toBytes (max a b)) := by
  unfold hashPair
  by_cases h : a ≤ b
  · rw [if_pos h, min_eq_left h, max_eq_right h]
  · rw [if_neg h, min_eq_right (le_of_not_le h), max_eq_left (le_of_not_le h)]

/-- In a tower, each layer after the first is derived from its predecessor by
one `buildLayer` step. -/
theorem layered_chain {hs : Hasher H} {L : List (List H)} {r : H} (hL : Layered hs L r) :
    ∀ (i : Nat) (l next : List H), L[i]? = some l → L[i + 1]? = some next →
      next = buildLayer hs l := by
  induction hL with
  | single x =>
    intro i l next _ hnext
    rcases i with _ | i0 <;> simp at hnext
  | step l rest r hlen hinner ih =>
    intro i l0 next h0 h1
    rcases i with _ | k
    · simp at h0 h1
      rw [← h0, ← h1]
    · rw [List.getElem?_cons_succ] at h0
      rw [show k + 1 + 1 = k + 1 + 1 from rfl, List.getElem?_cons_succ] at h1
      exact ih k l0 next h0 h1

/-! ## A concrete executable hasher for witnesses -/

/-- An injective encoding of byte strings into `Nat`, used as a concrete
collision-free stand-in for the pluggable hash function. -/
def encodeList : List Nat → Nat
  | [] => 0
  | x :: xs => Nat.pair x (encodeList xs) + 1

/-- The encoding is injective, so this toy hash function is collision-free. -/
theorem encodeList_injective : Function.Injective encodeList := by
  intro a
  induction a with
  | nil =>
    intro b h
    cases b with
    | nil => rfl
    | cons y ys => simp [encodeList] at h
  | cons x xs ih =>
    intro b h
    cases b with
    | nil => simp [encodeList] at h
    | cons y ys =>
      simp only [encodeList, Nat.add_right_cancel_iff] at h
      obtain ⟨h1, h2⟩ := Nat.pair_eq_pair.mp h
      rw [h1, ih h2]

/-- A concrete instance of the hash capability over `Nat` hash values. -/
def toyHasher : Hasher Nat :=
  { hash := encodeList, toBytes := fun n => [n], dflt := 0 }

/-- The toy byte conversion is injective. -/
theorem toyHasher_toBytes_injective : Function.Injective toyHasher.toBytes := by
  intro a b h
  simpa [toyHasher] using h

/-- The toy byte conversion is fixed-width. -/
theorem toyHasher_toBytes_length (a b : Nat) :
    (toyHasher.toBytes a).length = (toyHasher.toBytes b).length := rfl

/-- Evaluation of the two-leaf toy tree's layers (the construction loop is
well-founded recursion, so it is evaluated by unfolding it once per level). -/
theorem toyLayers_two : (build toyHasher [[1], [2]]).layers = [[3, 7], [3253]] := by
  rw [build_layers_eq]
  rw [show (build toyHasher [[1], [2]]).leaves = [3, 7] from by decide]
  rw [buildLayers, dif_pos (by decide)]
  rw [show buildLayer toyHasher [3, 7] = [3253] from by decide]
  rw [buildLayers, dif_neg (by decide)]

/-- Evaluation of the two-leaf toy tree's root. -/
theorem toyRoot_two : root toyHasher (build toyHasher [[1], [2]]) = some 3253 := by
  unfold root
  rw [toyLayers_two]
  rfl

/-- Evaluation of the three-leaf toy tree's layers: sizes 3, 2, 1, with the
trailing leaf `13` carried unchanged into the middle layer. -/
theorem toyLayers_three : (build toyHasher [[1], [2], [3]]).layers
    = [[3, 7, 13], [3253, 13], [112047792779183]] := by
  rw [build_layers_eq]
  rw [show (build toyHasher [[1], [2], [3]]).leaves = [3, 7, 13] from by decide]
  rw [buildLayers, dif_pos (by decide)]
  rw [show buildLayer toyHasher [3, 7, 13] = [3253, 13] from by decide]
  rw [buildLayers, dif_pos (by decide)]
  rw [show buildLayer toyHasher [3253, 13] = [112047792779183] from by decide]
  rw [buildLayers, dif_neg (by decide)]

/-! ## Soundness machinery: collision-freeness makes each fold step injective -/

/-- Under a collision-free hash capability (injective hash, injective
fixed-width byte conversion), combining with a fixed proof node is injective in
the accumulator. -/
theorem verifyStep_left_injective (hs : Hasher H)
    (hinj : Function.Injective hs.hash)
    (hbytes : Function.Injective hs.toBytes)
    (hwidth : ∀ a b : H, (hs.toBytes a).length = (hs.toBytes b).length)
    (node : H) {a b : H} (h : verifyStep hs a node = verifyStep hs b node) : a = b := by
  rw [verifyStep_eq_hashPair, verifyStep_eq_hashPair] at h
  unfold hashPair at h
  by_cases ha : a ≤ node <;> by_cases hb : b ≤ node
  · rw [if_pos ha, if_pos hb] at h
    exact hbytes (List.append_inj_left (hinj h) (hwidth a b))
  · rw [if_pos ha, if_neg hb] at h
    have happ := hinj h
    have h1 : hs.toBytes a = hs.toBytes node :=
      List.append_inj_left happ (hwidth a node)
    have h2 : hs.toBytes node = hs.toBytes b :=
      List.append_inj_right happ (hwidth a node)
    rw [hbytes h1, hbytes h2]
  · rw [if_neg ha, if_pos hb] at h
    have happ := hinj h
    have h1 : hs.toBytes node = hs.toBytes b :=
      List.append_inj_left happ (hwidth node b)
    have h2 : hs.toBytes a = hs.toBytes node :=
      List.append_inj_right happ (hwidth node b)
    rw [hbytes h2, hbytes h1]
  · rw [if_neg ha, if_neg hb] at h
    exact hbytes (List.append_inj_right (hinj h) rfl)

/-- Folding a proof into the accumulator is injective in the accumulator. -/
theorem foldl_verifyStep_injective (hs : Hasher H)
    (hinj : Function.Injective hs.hash)
    (hbytes : Function.Injective hs.toBytes)
    (hwidth : ∀ a b : H, (hs.toBytes a).length = (hs.toBytes b).length) :
    ∀ (pf : List H) (a b : H),
      pf.foldl (verifyStep hs) a = pf.foldl (verifyStep hs) b → a = b
  | [], _, _, h => h
  | n :: pf, a, b, h => by
    have := foldl_verifyStep_injective hs hinj hbytes hwidth pf
      (verifyStep hs a n) (verifyStep hs b n) (by simpa using h)
    exact verifyStep_left_injective hs hinj hbytes hwidth n this

/-! ## The claims -/

/-- C1: completeness of membership proofs. For every non-empty list of
byte-string leaves, building the tree and then, for every hash value present
in the tree's leaves, generating that leaf's proof and verifying it against
the leaf hash and the tree's root returns true. -/
theorem proof_verify_complete (hs : Hasher H) (input : List (List Nat)) (hne : input ≠ [])
    (leaf : H) (hmem : leaf ∈ (build hs input).leaves) :
    ∃ r, root hs (build hs input) = some r ∧
      verify hs (build hs input) (MerkleTree.proof (build hs input) leaf) leaf r = true := by
  obtain ⟨r, hlay, hroot⟩ := build_root_layered hs input hne
  refine ⟨r, hroot, ?_⟩
  obtain ⟨j, hj, hget, _, hfind⟩ := findLastIndex_mem leaf _ hmem
  have hproof : MerkleTree.proof (build hs input) leaf = proofWalk (build hs input).layers j := by
    unfold MerkleTree.proof
    rw [hfind]
  obtain ⟨hlt, heq⟩ := List.getElem?_eq_some.mp hget
  have hwalk := layered_proofWalk hs hlay (build hs input).leaves
    (buildLayers hs (build hs input).leaves) rfl j hlt
  rw [heq] at hwalk
  rw [hproof, build_layers_eq]
  unfold verify
  rw [show proofWalk ((build hs input).leaves :: buildLayers hs (build hs input).leaves) j
      = proofWalk ((build hs input).leaves :: buildLayers hs (build hs input).leaves) j from rfl]
  exact decide_eq_true hwalk

/-- Witness for C1 at a concrete input: the tree over byte strings `[1]` and
`[2]`, queried at the leaf hash of `[1]`. -/
theorem proof_verify_complete_witness :
    ([[1], [2]] : List (List Nat)) ≠ [] ∧ (3 : Nat) ∈ (build toyHasher [[1], [2]]).leaves ∧
    ∃ r, root toyHasher (build toyHasher [[1], [2]]) = some r ∧
      verify toyHasher (build toyHasher [[1], [2]])
        (MerkleTree.proof (build toyHasher [[1], [2]]) 3) 3 r = true :=
  ⟨by decide, by decide, proof_verify_complete toyHasher [[1], [2]] (by decide) 3 (by decide)⟩

/-- C2 (evaluating the code at the failing input): on an empty leaf list the
code does NOT produce zero layers — it produces exactly one layer, the empty
one — and `root()` then performs an out-of-bounds index (`layers[0][0]`),
modelled here as `none`, rather than returning the default hash. -/
theorem build_empty_one_layer_root_panics (hs : Hasher H) :
    (build hs []).layers = [[]] ∧ root hs (build hs []) = none := by
  have hlayers : (build hs []).layers = [[]] := by
    rw [build_layers_eq]
    rw [show (build hs []).leaves = [] from rfl]
    rw [buildLayers]
    simp
  refine ⟨hlayers, ?_⟩
  unfold root
  rw [hlayers]
  rfl

/-- C3: permutation invariance of the root. Permuting the input leaf list
leaves the whole built tree — in particular its root — unchanged, because the
hashed leaves are sorted before any layer is built. -/
theorem root_perm_invariant (hs : Hasher H) (l1 l2 : List (List Nat)) (hperm : l1.Perm l2) :
    root hs (build hs l1) = root hs (build hs l2) := by
  have hmap : ((l1.map hs.hash).Perm (l2.map hs.hash)) := hperm.map hs.hash
  have hanti : IsAntisymm H (fun a b : H => a ≤ b) := ⟨fun a b h1 h2 => le_antisymm h1 h2⟩
  have hsorted : List.insertionSort (fun a b : H => a ≤ b) (l1.map hs.hash)
      = List.insertionSort (fun a b : H => a ≤ b) (l2.map hs.hash) :=
    @List.eq_of_perm_of_sorted H (fun a b : H => a ≤ b) hanti _ _
      ((List.perm_insertionSort _ _).trans (hmap.trans (List.perm_insertionSort _ _).symm))
      (List.sorted_insertionSort _ _) (List.sorted_insertionSort _ _)
  unfold build
  rw [hsorted]

/-- Witness for C3 at a concrete input: the two orders of the byte strings
`[1]` and `[2]`. -/
theorem root_perm_invariant_witness :
    ([[1], [2]] : List (List Nat)).Perm [[2], [1]] ∧
    root toyHasher (build toyHasher [[1], [2]]) = root toyHasher (build toyHasher [[2], [1]]) :=
  ⟨by decide, root_perm_invariant toyHasher [[1], [2]] [[2], [1]] (by decide)⟩

/-- C4: soundness of membership proofs. In a built tree, for two leaf
positions holding different hash values, the proof generated for the one value
never verifies the other against the tree's root — provided the hash
capability is collision-free (injective hash function and injective,
fixed-width byte conversion). -/
theorem verify_sound (hs : Hasher H)
    (hinj : Function.Injective hs.hash)
    (hbytes : Function.Injective hs.toBytes)
    (hwidth : ∀ a b : H, (hs.toBytes a).length = (hs.toBytes b).length)
    (input : List (List Nat)) (i j : Nat) (a b : H)
    (ha : (build hs input).leaves[i]? = some a)
    (hb : (build hs input).leaves[j]? = some b)
    (hdiff : a ≠ b) (r : H)
    (hroot : root hs (build hs input) = some r) :
    verify hs (build hs input) (MerkleTree.proof (build hs input) a) b r = false := by
  have hne : input ≠ [] := by
    intro hc
    subst hc
    rw [show (build hs []).leaves = [] from rfl] at ha
    simp at ha
  obtain ⟨rr, hlay, hroot2⟩ := build_root_layered hs input hne
  have hrr : rr = r := by
    rw [hroot2] at hroot
    exact Option.some_inj.mp hroot
  subst hrr
  have hmem : a ∈ (build hs input).leaves := by
    obtain ⟨hlt, he⟩ := List.getElem?_eq_some.mp ha
    exact he ▸ List.getElem_mem hlt
  obtain ⟨k, hk, hget, _, hfind⟩ := findLastIndex_mem a _ hmem
  have hproof : MerkleTree.proof (build hs input) a = proofWalk (build hs input).layers k := by
    unfold MerkleTree.proof
    rw [hfind]
  obtain ⟨hlt, heq⟩ := List.getElem?_eq_some.mp hget
  have hwalk := layered_proofWalk hs hlay (build hs input).leaves
    (buildLayers hs (build hs input).leaves) rfl k hlt
  rw [heq] at hwalk
  rw [hproof, build_layers_eq]
  unfold verify
  apply decide_eq_false
  intro hcon
  exact hdiff (foldl_verifyStep_injective hs hinj hbytes hwidth _ a b
    (by rw [hwalk, hcon]))

/-- Witness for C4 at a concrete input: the two distinct leaves of the tree
over the byte strings `[1]` and `[2]`, with the collision-free toy hasher. -/
theorem verify_sound_witness :
    ((build toyHasher [[1], [2]]).leaves[0]? = some 3) ∧
    ((build toyHasher [[1], [2]]).leaves[1]? = some 7) ∧
    (3 : Nat) ≠ 7 ∧
    root toyHasher (build toyHasher [[1], [2]]) = some 3253 ∧
    verify toyHasher (build toyHasher [[1], [2]])
      (MerkleTree.proof (build toyHasher [[1], [2]]) 3) 7 3253 = false :=
  ⟨by decide, by decide, by decide, toyRoot_two,
    verify_sound toyHasher encodeList_injective toyHasher_toBytes_injective
      toyHasher_toBytes_length [[1], [2]] 0 1 3 7 (by decide) (by decide) (by decide)
      3253 toyRoot_two⟩

/-- C5: odd-node carry during construction. Each layer after the first is
`buildLayer` of its predecessor; when the predecessor has odd length its last
element reappears verbatim as the last element of the next layer, and every
full pair at positions `2k`, `2k + 1` produces the hash of the concatenation
of the two byte forms taken in ascending order of the hash values. -/
theorem construction_odd_carry (hs : Hasher H) (input : List (List Nat))
    (i k : Nat) (l next : List H) (a b : H)
    (hl : (build hs input).layers[i]? = some l)
    (hnext : (build hs input).layers[i + 1]? = some next) :
    next = buildLayer hs l ∧
    (l.length % 2 = 1 → next.getLast? = l.getLast?) ∧
    (l[2 * k]? = some a → l[2 * k + 1]? = some b →
      next[k]? = some (hs.hash (hs.toBytes (min a b) ++ hs.toBytes (max a b)))) := by
  have hne : input ≠ [] := by
    intro hc
    subst hc
    rw [(build_empty_one_layer_root_panics hs).1] at hnext
    rcases i with _ | i0 <;> simp at hnext
  obtain ⟨r, hlay, _⟩ := build_root_layered hs input hne
  have hchain := layered_chain hlay i l next hl hnext
  refine ⟨hchain, ?_, ?_⟩
  · intro hodd
    rw [hchain]
    exact buildLayer_getLast_odd hs l hodd
  · intro hka hkb
    rw [hchain]
    have hdiv : 2 * k / 2 = k := by omega
    have := buildLayer_getElem_left hs l (2 * k) a b (by omega) hka hkb
    rw [hdiv, hashPair_eq_minmax] at this
    exact this

/-- Witness for C5 at a concrete input: the three-leaf tree, whose bottom
layer `[3, 7, 13]` is odd and carries `13` into the next layer `[3253, 13]`. -/
theorem construction_odd_carry_witness :
    ((build toyHasher [[1], [2], [3]]).layers[0]? = some [3, 7, 13]) ∧
    ((build toyHasher [[1], [2], [3]]).layers[1]? = some [3253, 13]) ∧
    ([3253, 13] = buildLayer toyHasher [3, 7, 13] ∧
      (([3, 7, 13] : List Nat).length % 2 = 1 →
        ([3253, 13] : List Nat).getLast? = ([3, 7, 13] : List Nat).getLast?) ∧
      (([3, 7, 13] : List Nat)[2 * 0]? = some 3 → ([3, 7, 13] : List Nat)[2 * 0 + 1]? = some 7 →
        ([3253, 13] : List Nat)[0]? =
          some (toyHasher.hash (toyHasher.toBytes (min 3 7) ++ toyHasher.toBytes (max 3 7))))) :=
  ⟨by rw [toyLayers_three]; decide, by rw [toyLayers_three]; decide,
    construction_odd_carry toyHasher [[1], [2], [3]] 0 0 [3, 7, 13] [3253, 13] 3 7
      (by rw [toyLayers_three]; decide) (by rw [toyLayers_three]; decide)⟩

/-- C6: structural invariants of every built tree. The first layer is the
`leaves` field; the leaves are the input hashes sorted ascending (a sorted
permutation of the hashed input, duplicates retained); and for non-empty input
the final layer is a singleton holding exactly the value `root` returns. -/
theorem build_invariants (hs : Hasher H) (input : List (List Nat)) :
    (build hs input).layers.head? = some (build hs input).leaves ∧
    List.Sorted (fun a b : H => a ≤ b) (build hs input).leaves ∧
    ((build hs input).leaves).Perm (input.map hs.hash) ∧
    (input ≠ [] → ∃ r, (build hs input).layers.getLast? = some [r] ∧
      root hs (build hs input) = some r) := by
  refine ⟨rfl, List.sorted_insertionSort _ _, List.perm_insertionSort _ _, ?_⟩
  intro hne
  obtain ⟨r, hlay, hroot⟩ := build_root_layered hs input hne
  refine ⟨r, ?_, hroot⟩
  rw [build_layers_eq]
  exact layered_getLast hlay

/-- Witness for C6 at a concrete input: the two-leaf tree. -/
theorem build_invariants_witness :
    (build toyHasher [[1], [2]]).layers.head? = some (build toyHasher [[1], [2]]).leaves ∧
    ([[1], [2]] : List (List Nat)) ≠ [] ∧
    (∃ r, (build toyHasher [[1], [2]]).layers.getLast? = some [r] ∧
      root toyHasher (build toyHasher [[1], [2]]) = some r) :=
  ⟨(build_invariants toyHasher [[1], [2]]).1, by decide,
    (build_invariants toyHasher [[1], [2]]).2.2.2 (by decide)⟩

/-- C7: singleton input. Building from one byte string gives exactly one
layer; the root is that string's hash; the proof for it is empty; and the
empty proof verifies it against itself. -/
theorem singleton_tree (hs : Hasher H) (x : List Nat) :
    (build hs [x]).layers = [[hs.hash x]] ∧
    root hs (build hs [x]) = some (hs.hash x) ∧
    MerkleTree.proof (build hs [x]) (hs.hash x) = [] ∧
    verify hs (build hs [x]) [] (hs.hash x) (hs.hash x) = true := by
  have hleaves : (build hs [x]).leaves = [hs.hash x] := rfl
  have hlayers : (build hs [x]).layers = [[hs.hash x]] := by
    rw [build_layers_eq, hleaves, buildLayers]
    simp
  have hfind : findLastIndex (hs.hash x) [hs.hash x] = some 0 := by
    unfold findLastIndex lastIndexAux
    rw [if_pos rfl]
    rfl
  refine ⟨hlayers, ?_, ?_, ?_⟩
  · unfold root
    rw [hlayers]
    rfl
  · unfold MerkleTree.proof
    rw [hleaves, hfind, hlayers]
    simp [proofWalk]
  · unfold verify
    simp

/-- C8: absent leaf. Querying a proof for a hash value not among the tree's
leaves yields the empty sequence, with no failure. -/
theorem proof_absent_empty (t : MerkleTree H) (leaf : H) (h : leaf ∉ t.leaves) :
    MerkleTree.proof t leaf = [] := by
  unfold MerkleTree.proof
  rw [findLastIndex_not_mem leaf t.leaves h]

/-- Witness for C8 at a concrete input: the value `99` is not a leaf of the
two-leaf tree. -/
theorem proof_absent_empty_witness :
    (99 : Nat) ∉ (build toyHasher [[1], [2]]).leaves ∧
    MerkleTree.proof (build toyHasher [[1], [2]]) 99 = [] :=
  ⟨by decide, proof_absent_empty (build toyHasher [[1], [2]]) 99 (by decide)⟩

/-- C9: duplicate-lookup policy. When the queried hash value occurs among the
leaves, the lookup loop selects the highest matching index — no later position
holds the value — and the proof is the sibling walk started at that index. -/
theorem proof_picks_last_duplicate (t : MerkleTree H) (leaf : H) (hmem : leaf ∈ t.leaves) :
    ∃ i : Nat, findLastIndex leaf t.leaves = some i ∧ t.leaves[i]? = some leaf ∧
      (∀ k : Nat, i < k → t.leaves[k]? ≠ some leaf) ∧
      MerkleTree.proof t leaf = proofWalk t.layers i := by
  obtain ⟨j, hj, hget, hlast, hfind⟩ := findLastIndex_mem leaf t.leaves hmem
  refine ⟨j, hfind, hget, hlast, ?_⟩
  unfold MerkleTree.proof
  rw [hfind]

/-- Witness for C9 at a concrete input: the tree over two equal byte strings,
whose leaves are `[3, 3]`. -/
theorem proof_picks_last_duplicate_witness :
    (3 : Nat) ∈ (build toyHasher [[1], [1]]).leaves ∧
    (∃ i : Nat, findLastIndex 3 (build toyHasher [[1], [1]]).leaves = some i ∧
      (build toyHasher [[1], [1]]).leaves[i]? = some 3 ∧
      (∀ k : Nat, i < k → (build toyHasher [[1], [1]]).leaves[k]? ≠ some 3) ∧
      MerkleTree.proof (build toyHasher [[1], [1]]) 3
        = proofWalk (build toyHasher [[1], [1]]).layers i) :=
  ⟨by decide, proof_picks_last_duplicate (build toyHasher [[1], [1]]) 3 (by decide)⟩

/-- C10: `verify` never reads its receiver. Its result is the same on any two
trees given identical proof, leaf and claimed-root arguments. -/
theorem verify_ignores_tree (hs : Hasher H) (t1 t2 : MerkleTree H) (pf : List H)
    (leaf r : H) : verify hs t1 pf leaf r = verify hs t2 pf leaf r := rfl
